import Mathlib

/-!
# Check Character Calculator — verification of the core functions

Shallow embedding of `src/js/functions.js`.  Location strings are modelled
as `List Char` (JS strings indexed by position); produced phonetic/check
strings are Lean `String`s.  JS array indexing out of range yields
`undefined`, which string concatenation renders as `"undefined"`; we model
that sentinel explicitly.  `charCodeAt` is modelled by `Char.toNat`, which
agrees with UTF-16 code units on the basic multilingual plane (the whole
input domain here).  JS `isNaN(c)` on a single non-whitespace character
equals `¬ c.isDigit`, which covers every character reachable in this code
(alphanumerics, `+`, `-`).
-/

namespace CheckChar

/-- The `letters` array: phonetic representations of A..Z. -/
def letters : List String := ["ALPHA", "BRAVO", "CHARLIE", "DELTA", "ECHO", "FOXTROT", "GOLF", "HOTEL", "INDIA", "JULIET", "KILO", "LIMA", "MIKE", "NOVEMBER", "OSCAR", "PAPA", "QUEBEC", "ROMEO", "SIERRA", "TANGO", "UNIFORM", "VICTOR", "WHISKEY", "X-RAY", "YANKEE", "ZULU"]

/-- The `numbers` array: phonetic representations of 0..9. -/
def numbers : List String := ["ZERO", "ONE", "TWO", "THREE", "FOUR", "FIVE", "SIX", "SEVEN", "EIGHT", "NINE"]

/-- JS array lookup `table[i]` with an `Int` index: out-of-range gives
`undefined`, which later string concatenation turns into `"undefined"`. -/
def jsLookup (table : List String) (i : Int) : String :=
  if 0 ≤ i then table.getD i.toNat "undefined" else "undefined"

/-- JS `location.substr(start, len)` for non-negative arguments. -/
def jsSubstr (l : List Char) (start len : Nat) : List Char :=
  (l.drop start).take len

/-- JS `location.substr(-1)`: the last character (empty for an empty string). -/
def jsSubstrLast (l : List Char) : List Char :=
  l.drop (l.length - 1)

/-- JS `$.trim` / `String.prototype.trim`: strip whitespace from both ends. -/
def jsTrim (s : String) : String :=
  ⟨((s.data.dropWhile Char.isWhitespace).reverse.dropWhile Char.isWhitespace).reverse⟩

/-- `convertToWord(character)`: takes `character.substr(0, 1)`; if it is a
digit (`!isNaN`), index `numbers` by its value; otherwise index `letters`
by `charCodeAt(0) - 65` of the uppercased character.  An empty argument
gives `numbers[""]`, i.e. `undefined`. -/
def convertToWord (character : List Char) : String :=
  match character with
  | [] => "undefined"
  | c :: _ =>
    if c.isDigit then numbers.getD (c.toNat - 48) "undefined"
    else jsLookup letters ((c.toUpper.toNat : Int) - 65)

/-- The substring `location.substr(i, i + 1)` examined at loop index `i`
of `getPhonetic`. -/
def phonSub (l : List Char) (i : Nat) : List Char :=
  jsSubstr l i (i + 1)

/-- The guard of `getPhonetic`'s loop body, exactly as written in the
source: `location.substr(i, i+1) !== '+' && location.substr(i, i+1) !== '+'`
(the same comparison twice). -/
def phonKeep (l : List Char) (i : Nat) : Bool :=
  (phonSub l i ≠ ['+'] : Bool) && (phonSub l i ≠ ['+'] : Bool)

/-- The string appended to `result` during iteration `i` of
`getPhonetic`'s loop: the phonetic word (when the guard holds) followed by
a space (when `i` is not the last index). -/
def phonPiece (l : List Char) (i : Nat) : String :=
  (if phonKeep l i then convertToWord ((phonSub l i).map Char.toUpper) else "")
    ++ (if i ≠ l.length - 1 then " " else "")

/-- Concatenation of the strings appended by successive loop iterations. -/
def strConcat : List String → String
  | [] => ""
  | s :: rest => s ++ strConcat rest

/-- `getPhonetic(location)`: loop `i` from `0` to `location.length - 1`,
appending each iteration's contribution to `result`. -/
def getPhonetic (l : List Char) : String :=
  strConcat ((List.range l.length).map (phonPiece l))

/-- Variant of `getPhonetic` whose guard states the `!== '+'` comparison
once instead of twice; used to show the second comparison is redundant. -/
def getPhoneticOnce (l : List Char) : String :=
  strConcat ((List.range l.length).map (fun i =>
    (if (phonSub l i ≠ ['+'] : Bool) then convertToWord ((phonSub l i).map Char.toUpper) else "")
      ++ (if i ≠ l.length - 1 then " " else "")))

/-- `getCheck(location)`: `"NONE"` unless the location has exactly 4
characters; otherwise sum `charCodeAt(j % 4) * (j % 3 * 2 + 3)` for
`j = 2, 3, 4, 5`, reduce mod 26, add 65 and convert the letter to a word. -/
def getCheck (l : List Char) : String :=
  if l.length ≠ 4 then "NONE"
  else
    let i := ([2, 3, 4, 5] : List Nat).foldl
      (fun acc j => acc + (l.getD (j % 4) 'A').toNat * (j % 3 * 2 + 3)) 0
    convertToWord [Char.ofNat (i % 26 + 65)]

/-- The non-recursive tail of `handleSpecialLocation`: the rules tried
after the relative-suffix rule, in source order.  `none` models the
function falling through (returning `undefined`, i.e. no-match). -/
def hslRest (location : List Char) : Option (String × String) :=
  if location = "SOB".data then some ("SOB", "SIERRA")
  else if location = "DPA".data then some ("DPA", "VICTOR")
  else if location = "RETS".data then some ("RETURNS", getCheck location)
  else if jsSubstr location 0 2 = "CA".data then
    some (jsTrim ("CASH OFFICE " ++ getPhonetic (jsSubstr location 2 4)), getCheck location)
  else if jsSubstr location 0 2 = "CP".data then
    some (jsTrim ("COLLECTION POINT " ++ getPhonetic (jsSubstr location 2 4)), getCheck location)
  else if jsSubstr location 0 1 = "J".data then
    some (jsTrim ("JEWELLERY " ++ getPhonetic (jsSubstr location 1 4)), getCheck location)
  else if jsSubstr location 0 1 = "S".data then
    some (jsTrim ("SECURITY " ++ getPhonetic (jsSubstr location 1 4)), getCheck location)
  else if jsSubstr location 0 1 = "L".data then
    some (jsTrim (getPhonetic (jsSubstr location 1 2) ++ " LINBIN "
      ++ getPhonetic (jsSubstr location 3 4)), getCheck location)
  else if jsSubstr location 0 1 = "Z".data then
    some (jsTrim (getPhonetic (jsSubstr location 1 2) ++ " BULK "
      ++ jsTrim (getPhonetic (jsSubstr location 3 4))), getCheck location)
  else none

/-- `handleSpecialLocation`, with an explicit fuel bounding the recursion
depth (the JS recursion is on `location.substr(0, length - 1)`, one
character shorter each time, so fuel `location.length` always suffices —
proved below).  The net effect of the DOM writes is returned as the final
`(phonetic, check)` pair: in the suffix branch the recursive call's check
text is overwritten by `getCheck` of the full location. -/
def hslAux : Nat → List Char → Option (String × String)
  | 0, location =>
    if jsSubstrLast location = ['+'] ∨ jsSubstrLast location = ['-'] then none
    else hslRest location
  | fuel + 1, location =>
    if jsSubstrLast location = ['+'] ∨ jsSubstrLast location = ['-'] then
      let relWord : String := if jsSubstrLast location = ['+'] then "AFTER " else "BEFORE "
      let stripped := location.take (location.length - 1)
      let phonetic : String :=
        match hslAux fuel stripped with
        | some (p, _) => relWord ++ p
        | none => relWord ++ getPhonetic stripped
      some (phonetic, getCheck location)
    else hslRest location

/-- `handleSpecialLocation(location)`: `some (phonetic, check)` when the
location is special, `none` when the function falls through. -/
def handleSpecialLocation (location : List Char) : Option (String × String) :=
  hslAux location.length location

/-- Modelled from the spec: the per-character phonetic word of the
Renderer's contract — "digit → number-name table, letter → letter-name
table by position `charCode - 'A'`". -/
def specWord (c : Char) : String :=
  if c.isDigit then numbers.getD (c.toNat - 48) "undefined"
  else letters.getD (c.toNat - 65) "undefined"

/-- Modelled from the spec: "join the words with a single space separator,
preserving input order". -/
def joinWords : List String → String
  | [] => ""
  | [w] => w
  | w :: ws => w ++ " " ++ joinWords ws

/-- The uppercase alphanumeric characters — the input alphabet the spec
assumes for the Renderer. -/
def upperAlnumChars : List Char := "ABCDEFGHIJKLMNOPQRSTUVWXYZ0123456789".data

/-! ## Helper lemmas -/

theorem convertToWord_letter (m : Nat) (hm : m < 26) :
    convertToWord [Char.ofNat (m + 65)] = letters.getD m "undefined" := by
  interval_cases m <;> rfl

/-- `getCheck` on a 4-character location, in closed form: the weighted sum
`5·c0 + 7·c1 + 7·c2 + 3·c3` reduced mod 26 indexes the letter table. -/
theorem getCheck_cons (c0 c1 c2 c3 : Char) :
    getCheck [c0, c1, c2, c3]
      = letters.getD ((5 * c0.toNat + 7 * c1.toNat + 7 * c2.toNat + 3 * c3.toNat) % 26) "undefined" := by
  have h4 : ([c0, c1, c2, c3] : List Char).length = 4 := rfl
  simp only [getCheck, h4, ne_eq, not_true_eq_false, if_false, List.foldl, List.getD,
    List.getElem?_cons_zero, List.getElem?_cons_succ, Option.getD_some]
  norm_num
  rw [show c2.toNat * 7 + c3.toNat * 3 + c0.toNat * 5 + c1.toNat * 7
      = 5 * c0.toNat + 7 * c1.toNat + 7 * c2.toNat + 3 * c3.toNat by ring]
  have := convertToWord_letter ((5 * c0.toNat + 7 * c1.toNat + 7 * c2.toNat + 3 * c3.toNat) % 26)
    (Nat.mod_lt _ (by norm_num))
  simpa [List.getD] using this

theorem letters_getD_facts (m : Nat) (hm : m < 26) :
    letters.getD m "undefined" ∈ letters
      ∧ letters.getD m "undefined" ≠ "NONE"
      ∧ ' ' ∉ (letters.getD m "undefined").data := by
  interval_cases m <;> decide

theorem letters_indexOf_getD (m : Nat) (hm : m < 26) :
    letters.indexOf (letters.getD m "undefined") = m := by
  interval_cases m <;> rfl

theorem length_eq_four (l : List Char) (h : l.length = 4) :
    ∃ a b c d, l = [a, b, c, d] := by
  rcases l with _ | ⟨a, _ | ⟨b, _ | ⟨c, _ | ⟨d, _ | ⟨e, t⟩⟩⟩⟩⟩ <;> simp_all

theorem phonSub_eq_cons (l : List Char) (i : Nat) (h : i < l.length) :
    phonSub l i = l[i] :: (l.drop (i + 1)).take i := by
  rw [phonSub, jsSubstr, List.drop_eq_getElem_cons h, List.take_succ_cons]

theorem alnum_convert (c : Char) (hc : c ∈ upperAlnumChars) (rest : List Char) :
    convertToWord (c.toUpper :: rest) = specWord c := by
  fin_cases hc <;> rfl

theorem alnum_ne_plus : ∀ c ∈ upperAlnumChars, c ≠ '+' := by decide

theorem phonKeep_of_head_ne (l : List Char) (i : Nat) (h : i < l.length)
    (hc : l[i] ≠ '+') : phonKeep l i = true := by
  simp only [phonKeep, phonSub_eq_cons l i h, Bool.and_self, decide_eq_true_eq, ne_eq]
  simp_all

theorem phonPiece_alnum (l : List Char) (i : Nat) (h : i < l.length)
    (hc : l[i] ∈ upperAlnumChars) :
    phonPiece l i = specWord l[i] ++ (if i ≠ l.length - 1 then " " else "") := by
  rw [phonPiece, phonKeep_of_head_ne l i h (alnum_ne_plus _ hc), if_pos rfl]
  rw [phonSub_eq_cons l i h]
  simp only [List.map_cons]
  rw [alnum_convert _ hc]

theorem strConcat_range_succ (f : Nat → String) (n : Nat) :
    strConcat ((List.range (n + 1)).map f)
      = f 0 ++ strConcat ((List.range n).map (fun i => f (i + 1))) := by
  rw [List.range_succ_eq_map, List.map_cons, List.map_map]
  rfl

theorem joinRange (g : Char → String) (l : List Char) :
    strConcat ((List.range l.length).map
      (fun i => g (l.getD i ' ') ++ if i ≠ l.length - 1 then " " else ""))
      = joinWords (l.map g) := by
  induction l with
  | nil => rfl
  | cons c l' ih =>
    simp only [List.length_cons, Nat.add_sub_cancel]
    rw [strConcat_range_succ]
    simp only [List.getD_cons_succ, List.getD_cons_zero]
    cases l' with
    | nil => simp [joinWords, strConcat]
    | cons x rest =>
      have hmap : (List.range (x :: rest).length).map
          (fun i => g ((x :: rest).getD i ' ') ++ if i + 1 ≠ (x :: rest).length then " " else "")
          = (List.range (x :: rest).length).map
            (fun i => g ((x :: rest).getD i ' ') ++ if i ≠ (x :: rest).length - 1 then " " else "") := by
        refine List.map_congr_left ?_
        intro a ha
        have halt : a < (x :: rest).length := List.mem_range.mp ha
        congr 1
        exact if_congr (by omega) rfl rfl
      rw [hmap, ih]
      rw [if_pos (by simp)]
      show g c ++ " " ++ joinWords (g x :: rest.map g) = joinWords (g c :: g x :: rest.map g)
      rfl

theorem getPhonetic_alnum (l : List Char) (hall : ∀ c ∈ l, c ∈ upperAlnumChars) :
    getPhonetic l = joinWords (l.map specWord) := by
  rw [getPhonetic]
  rw [show (List.range l.length).map (phonPiece l)
      = (List.range l.length).map
        (fun i => specWord (l.getD i ' ') ++ if i ≠ l.length - 1 then " " else "") by
    refine List.map_congr_left ?_
    intro i hi
    have h : i < l.length := List.mem_range.mp hi
    rw [phonPiece_alnum l i h (hall _ (l.getElem_mem h)), List.getD_eq_getElem l ' ' h]]
  exact joinRange specWord l

theorem phonKeep_false_iff (l : List Char) (i : Nat) (h : i < l.length) :
    phonKeep l i = false ↔ (l[i] = '+' ∧ (i = 0 ∨ i = l.length - 1)) := by
  have hsub : phonSub l i = l[i] :: (l.drop (i + 1)).take i := phonSub_eq_cons l i h
  constructor
  · intro hk
    have heq : phonSub l i = ['+'] := by
      by_contra hne
      simp [phonKeep, hne] at hk
    rw [hsub, List.cons.injEq] at heq
    refine ⟨heq.1, ?_⟩
    have htake : (l.drop (i + 1)).take i = [] := heq.2
    rcases List.take_eq_nil_iff.mp htake with h0 | hdrop
    · exact Or.inl h0
    · have := List.drop_eq_nil_iff.mp hdrop
      omega
  · rintro ⟨hplus, hpos⟩
    have heq : phonSub l i = ['+'] := by
      rw [hsub, hplus]
      rcases hpos with h0 | hlast
      · subst h0
        simp
      · have : l.length ≤ i + 1 := by omega
        simp [List.drop_eq_nil_iff.mpr this]
    simp [phonKeep, heq]

theorem jsSubstrLast_singleton (l : List Char) (h : l ≠ []) :
    jsSubstrLast l = [l.getLast h] := by
  conv_lhs => rw [jsSubstrLast, ← List.dropLast_append_getLast h]
  rw [List.length_append, List.length_dropLast]
  have hlen : 1 ≤ l.length := List.length_pos.mpr h
  rw [show l.length - 1 + [l.getLast h].length - 1 = l.dropLast.length by
    simp [List.length_dropLast]]
  exact List.drop_left l.dropLast [l.getLast h]

/-- Fuel at least `l.length` always suffices for `hslAux`: the suffix rule
recurses only on the input shorn of its last character. -/
theorem hslAux_fuel (fuel : Nat) : ∀ l : List Char, l.length ≤ fuel →
    hslAux fuel l = handleSpecialLocation l := by
  induction fuel with
  | zero =>
    intro l h
    have : l = [] := List.eq_nil_of_length_eq_zero (Nat.le_zero.mp h)
    subst this
    rfl
  | succ f ih =>
    intro l h
    by_cases hc : jsSubstrLast l = ['+'] ∨ jsSubstrLast l = ['-']
    · have hne : l ≠ [] := by
        rintro rfl
        simp [jsSubstrLast] at hc
      obtain ⟨k, hk⟩ : ∃ k, l.length = k + 1 := by
        cases hl : l.length with
        | zero => exact absurd (List.eq_nil_of_length_eq_zero hl) hne
        | succ k => exact ⟨k, rfl⟩
      have htl : (l.take (l.length - 1)).length = k := by
        simp [List.length_take]
        omega
      rw [handleSpecialLocation, hk]
      rw [hslAux, hslAux]
      simp only [if_pos hc]
      rw [ih (l.take (l.length - 1)) (by omega), handleSpecialLocation, htl]
    · rw [handleSpecialLocation]
      cases hl : l.length with
      | zero => rw [hslAux, hslAux]; simp only [if_neg hc]
      | succ k => rw [hslAux, hslAux]; simp only [if_neg hc]

theorem head_ne_cons {a b : Char} (h : a ≠ b) (t s : List Char) : a :: t ≠ b :: s := by
  intro he
  injection he with h1 _
  exact h h1

theorem jsSubstr_two (l : List Char) (a b : Char) (h : jsSubstr l 0 2 = [a, b]) :
    ∃ t, l = a :: b :: t := by
  rcases l with _ | ⟨x, _ | ⟨y, t⟩⟩ <;> simp [jsSubstr] at h
  exact ⟨t, by rw [h.1, h.2]⟩

theorem jsSubstr_one (l : List Char) (a : Char) (h : jsSubstr l 0 1 = [a]) :
    ∃ t, l = a :: t := by
  rcases l with _ | ⟨x, t⟩ <;> simp [jsSubstr] at h
  exact ⟨t, by rw [h]⟩

/-- Unfolding of the relative-suffix rule: when the last character is a
`'+'` or `'-'`, the classifier prepends `"AFTER "`/`"BEFORE "` to the
recursive classification of the stripped prefix (its phonetic if special,
its generic rendering otherwise) and computes the check on the full
string. -/
theorem hsl_suffix_eq (l : List Char) (s : Char) (hne : l ≠ []) (hgl : l.getLast hne = s)
    (hs : s = '+' ∨ s = '-') :
    handleSpecialLocation l
      = some ((if s = '+' then "AFTER " else "BEFORE ")
          ++ (handleSpecialLocation l.dropLast).elim (getPhonetic l.dropLast) Prod.fst,
          getCheck l) := by
  have hsub : jsSubstrLast l = [s] := by rw [jsSubstrLast_singleton l hne, hgl]
  have hcond : jsSubstrLast l = ['+'] ∨ jsSubstrLast l = ['-'] := by
    rcases hs with h | h
    · exact Or.inl (by rw [hsub, h])
    · exact Or.inr (by rw [hsub, h])
  obtain ⟨k, hk⟩ : ∃ k, l.length = k + 1 := by
    have := List.length_pos.mpr hne
    exact ⟨l.length - 1, by omega⟩
  have htl : (l.take (l.length - 1)).length = k := by
    simp [List.length_take]
    omega
  have hdl : l.take (l.length - 1) = l.dropLast := (List.dropLast_eq_take l).symm
  rw [handleSpecialLocation, hk, hslAux]
  simp only [if_pos hcond]
  rw [hslAux_fuel k (l.take (l.length - 1)) (le_of_eq htl), hdl]
  have hrel : (if jsSubstrLast l = ['+'] then ("AFTER " : String) else "BEFORE ")
      = (if s = '+' then "AFTER " else "BEFORE ") := by
    rw [hsub]
    rcases hs with h | h <;> subst h <;> simp
  rw [hrel]
  cases handleSpecialLocation l.dropLast with
  | none => rfl
  | some pr => rfl

/-! ## Claim theorems -/

/-- C1: for every 4-character code, `getCheck` equals the letter-table word
at index `(Σ_j charCode(code[j mod 4]) · ((j mod 3)·2 + 3)) mod 26` for
`j = 2..5`; equivalently, weights 7, 3, 5, 7 apply to positions 2, 3, 0, 1
(i.e. 5·c0 + 7·c1 + 7·c2 + 3·c3), the sum is reduced mod 26, and the
result always comes from the letter table, never the digit table. -/
theorem getCheck_weighted_formula (c0 c1 c2 c3 : Char) :
    getCheck [c0, c1, c2, c3]
      = letters.getD ((([2, 3, 4, 5] : List Nat).map (fun j =>
          ([c0, c1, c2, c3].getD (j % 4) 'A').toNat * (j % 3 * 2 + 3))).sum % 26) "undefined"
    ∧ getCheck [c0, c1, c2, c3]
      = letters.getD ((5 * c0.toNat + 7 * c1.toNat + 7 * c2.toNat + 3 * c3.toNat) % 26) "undefined" := by
  constructor
  · rw [getCheck_cons]
    simp only [List.map, List.sum_cons, List.sum_nil, List.getD, List.getElem?_cons_zero,
      List.getElem?_cons_succ, Option.getD_some]
    norm_num
    rw [show c2.toNat * 7 + (c3.toNat * 3 + (c0.toNat * 5 + c1.toNat * 7))
        = 5 * c0.toNat + 7 * c1.toNat + 7 * c2.toNat + 3 * c3.toNat by ring]
  · exact getCheck_cons c0 c1 c2 c3

/-- C3: `getCheck` returns the literal `"NONE"` exactly on inputs whose
length differs from 4; on every 4-character input it returns a word of the
letter table — never `"NONE"`, never a multi-word (space-containing)
string. -/
theorem getCheck_length_guard :
    (∀ l : List Char, l.length ≠ 4 → getCheck l = "NONE")
    ∧ (∀ l : List Char, l.length = 4 →
        getCheck l ∈ letters ∧ getCheck l ≠ "NONE" ∧ ' ' ∉ (getCheck l).data) := by
  constructor
  · intro l h
    simp [getCheck, h]
  · intro l h
    obtain ⟨a, b, c, d, rfl⟩ := length_eq_four l h
    rw [getCheck_cons]
    exact letters_getD_facts _ (Nat.mod_lt _ (by norm_num))

/-- Witness for C3 at concrete inputs of length 3 and 4. -/
theorem getCheck_length_guard_witness :
    getCheck ['A', 'B', 'C'] = "NONE" ∧ getCheck ['A', 'B', 'C', 'D'] ≠ "NONE" :=
  ⟨getCheck_length_guard.1 ['A', 'B', 'C'] (by decide),
   (getCheck_length_guard.2 ['A', 'B', 'C', 'D'] (by decide)).2.1⟩

/-- C6: on 4-character codes, incrementing the character code of the last
character by one advances the check letter by exactly 3 alphabet positions
mod 26; concretely `getCheck "AAAA" = "ALPHA"` and
`getCheck "AAAB" = "DELTA"`. -/
theorem getCheck_last_char_step :
    (∀ c0 c1 c2 c3 c3' : Char, c3'.toNat = c3.toNat + 1 →
      letters.indexOf (getCheck [c0, c1, c2, c3'])
        = (letters.indexOf (getCheck [c0, c1, c2, c3]) + 3) % 26)
    ∧ getCheck "AAAA".data = "ALPHA" ∧ getCheck "AAAB".data = "DELTA" := by
  refine ⟨?_, by decide, by decide⟩
  intro c0 c1 c2 c3 c3' h
  rw [getCheck_cons, getCheck_cons, h,
    letters_indexOf_getD _ (Nat.mod_lt _ (by norm_num)),
    letters_indexOf_getD _ (Nat.mod_lt _ (by norm_num))]
  omega

/-- Witness for C6: incrementing the last character of "AAAA" to "AAAB". -/
theorem getCheck_last_char_step_witness :
    'B'.toNat = 'A'.toNat + 1
    ∧ letters.indexOf (getCheck ['A', 'A', 'A', 'B'])
        = (letters.indexOf (getCheck ['A', 'A', 'A', 'A']) + 3) % 26 :=
  ⟨by decide, getCheck_last_char_step.1 'A' 'A' 'A' 'A' 'B' (by decide)⟩

/-- C4: on uppercase-alphanumeric input `getPhonetic` maps each character
in order to its phonetic word (digits through the number table, letters
through the letter table at `charCode - 'A'`) and joins the words with a
single space; each single alphanumeric character yields its own word,
`getPhonetic "AB" = "ALPHA BRAVO"` and `getPhonetic "" = ""` (never
`"NONE"`). -/
theorem renderer_maps_each_char :
    (∀ l : List Char, (∀ c ∈ l, c ∈ upperAlnumChars) →
      getPhonetic l = joinWords (l.map specWord))
    ∧ (∀ c ∈ upperAlnumChars, getPhonetic [c] = specWord c)
    ∧ getPhonetic "AB".data = "ALPHA BRAVO"
    ∧ getPhonetic [] = "" := by
  refine ⟨getPhonetic_alnum, by decide, by decide, rfl⟩

/-- Witness for C4 on the concrete input "AB". -/
theorem renderer_maps_each_char_witness :
    getPhonetic "AB".data = joinWords ("AB".data.map specWord) :=
  renderer_maps_each_char.1 "AB".data (by decide)

/-- C9 counterexample: the claim says the exclusion guard suppresses a '+'
only at position 0 because at every `i > 0` the compared substring has
length greater than one; but at the last position of "A+" (index 1 > 0)
the compared substring is exactly "+" (length 1) and the '+' is
suppressed, so `getPhonetic "A+" = "ALPHA "`. -/
theorem renderer_exclusion_counterexample :
    phonKeep ['A', '+'] 1 = false
    ∧ (0 : Nat) < 1
    ∧ (phonSub ['A', '+'] 1).length = 1
    ∧ getPhonetic ['A', '+'] = "ALPHA " := by decide

/-- C9 amended: the guard never excludes '-' (its lookup always runs); it
suppresses a '+' exactly when the '+' sits at position 0 or at the last
position (where the compared substring degenerates to length 1); and the
second, identical comparison is redundant — stating it once gives the same
function. -/
theorem renderer_exclusion_amended :
    (∀ (l : List Char) (i : Nat) (h : i < l.length), l[i] = '-' → phonKeep l i = true)
    ∧ (∀ (l : List Char) (i : Nat) (h : i < l.length),
        (phonKeep l i = false ↔ (l[i] = '+' ∧ (i = 0 ∨ i = l.length - 1))))
    ∧ (∀ l : List Char, getPhoneticOnce l = getPhonetic l) := by
  refine ⟨?_, phonKeep_false_iff, ?_⟩
  · intro l i h hc
    exact phonKeep_of_head_ne l i h (by simp [hc])
  · intro l
    rw [getPhoneticOnce, getPhonetic]
    congr 1
    refine List.map_congr_left ?_
    intro i _
    simp [phonPiece, phonKeep, Bool.and_self]

/-- Witness for C9's amended statement: the '-' in "-" is looked up, and
the '+' of "A+" is suppressed at the last position. -/
theorem renderer_exclusion_amended_witness :
    phonKeep ['-'] 0 = true ∧ (phonKeep ['A', '+'] 1 = false ↔
      ((['A', '+'] : List Char)[1] = '+' ∧ ((1 : Nat) = 0 ∨ (1 : Nat) = (['A', '+'] : List Char).length - 1))) :=
  ⟨renderer_exclusion_amended.1 ['-'] 0 (by decide) (by decide),
   renderer_exclusion_amended.2.1 ['A', '+'] 1 (by decide)⟩

/-- C2: whenever the last character is '+' or '-', the classifier prepends
"AFTER "/"BEFORE " to the classification of the stripped prefix (the
prefix's special-family phonetic when it is special, its generic rendering
otherwise), and the check is computed on the full original string
including the suffix character; in particular `"S1A+"` classifies to
"AFTER SECURITY ONE ALPHA" with check `getCheck "S1A+"`, and the stripped
prefix "S1A" would instead give check "NONE". -/
theorem classifier_relative_suffix :
    (∀ (l : List Char) (s : Char), l.getLast? = some s → s = '+' ∨ s = '-' →
      handleSpecialLocation l
        = some ((if s = '+' then "AFTER " else "BEFORE ")
            ++ (handleSpecialLocation l.dropLast).elim (getPhonetic l.dropLast) Prod.fst,
            getCheck l))
    ∧ handleSpecialLocation "S1A+".data = some ("AFTER SECURITY ONE ALPHA", getCheck "S1A+".data)
    ∧ getCheck "S1A+".data ≠ "NONE" ∧ getCheck "S1A".data = "NONE" := by
  refine ⟨?_, by decide, by decide, by decide⟩
  intro l s hlast hs
  have hne : l ≠ [] := by
    rintro rfl
    simp at hlast
  have hgl : l.getLast hne = s := by
    rw [List.getLast?_eq_getLast_of_ne_nil hne] at hlast
    exact Option.some_inj.mp hlast
  exact hsl_suffix_eq l s hne hgl hs

/-- Witness for C2 on the concrete input "A-". -/
theorem classifier_relative_suffix_witness :
    (['A', '-'] : List Char).getLast? = some '-'
    ∧ handleSpecialLocation ['A', '-']
        = some ((if '-' = '+' then "AFTER " else "BEFORE ")
            ++ (handleSpecialLocation (['A', '-'] : List Char).dropLast).elim
                (getPhonetic (['A', '-'] : List Char).dropLast) Prod.fst,
            getCheck ['A', '-']) :=
  ⟨by decide, classifier_relative_suffix.1 ['A', '-'] '-' (by decide) (Or.inr rfl)⟩

/-- C5: exact "SOB" classifies to phonetic "SOB" with the literal check
"SIERRA", exact "DPA" to "DPA" with literal "VICTOR"; the exact-match
rules fire before the single-letter prefix rules, so "SOB" is not given
the Security-family output its "S" prefix would produce. -/
theorem classifier_fixed_overrides :
    handleSpecialLocation "SOB".data = some ("SOB", "SIERRA")
    ∧ handleSpecialLocation "DPA".data = some ("DPA", "VICTOR")
    ∧ handleSpecialLocation "SOB".data
        ≠ some (jsTrim ("SECURITY " ++ getPhonetic (jsSubstr "SOB".data 1 4)),
            getCheck "SOB".data) := by decide

/-- C7: every code beginning with "CA" whose last character is not a
relative suffix classifies to "CASH OFFICE " plus the trimmed rendering of
the characters from position 2 on, with the check computed from the full
code; concretely `classify "CA12" = ("CASH OFFICE ONE TWO", getCheck "CA12")`. -/
theorem classifier_cash_office :
    (∀ l : List Char, jsSubstr l 0 2 = "CA".data →
      jsSubstrLast l ≠ ['+'] → jsSubstrLast l ≠ ['-'] →
      handleSpecialLocation l
        = some (jsTrim ("CASH OFFICE " ++ getPhonetic (jsSubstr l 2 4)), getCheck l))
    ∧ handleSpecialLocation "CA12".data = some ("CASH OFFICE ONE TWO", getCheck "CA12".data) := by
  refine ⟨?_, by decide⟩
  intro l hca hplus hminus
  obtain ⟨t, rfl⟩ := jsSubstr_two l 'C' 'A' hca
  rw [handleSpecialLocation]
  simp only [List.length_cons]
  rw [hslAux]
  rw [if_neg (not_or.mpr ⟨hplus, hminus⟩)]
  rw [hslRest]
  rw [if_neg (head_ne_cons (by decide) _ _), if_neg (head_ne_cons (by decide) _ _),
    if_neg (head_ne_cons (by decide) _ _), if_pos hca]

/-- Witness for C7 on the concrete input "CA". -/
theorem classifier_cash_office_witness :
    handleSpecialLocation "CA".data
      = some (jsTrim ("CASH OFFICE " ++ getPhonetic (jsSubstr "CA".data 2 4)),
          getCheck "CA".data) :=
  classifier_cash_office.1 "CA".data (by decide) (by decide) (by decide)

/-- C8: every code beginning with "L" whose last character is not a
relative suffix classifies to rendering(substr(1,2)) ++ " LINBIN " ++
rendering(substr(3,4)), trimmed, with the check computed from the full
code; on a 4-character code those slices are the two characters at
indices 1–2 and the single character at index 3. -/
theorem classifier_linbin :
    (∀ l : List Char, jsSubstr l 0 1 = "L".data →
      jsSubstrLast l ≠ ['+'] → jsSubstrLast l ≠ ['-'] →
      handleSpecialLocation l
        = some (jsTrim (getPhonetic (jsSubstr l 1 2) ++ " LINBIN "
            ++ getPhonetic (jsSubstr l 3 4)), getCheck l))
    ∧ (∀ c0 c1 c2 c3 : Char,
        jsSubstr [c0, c1, c2, c3] 1 2 = [c1, c2] ∧ jsSubstr [c0, c1, c2, c3] 3 4 = [c3]) := by
  refine ⟨?_, fun c0 c1 c2 c3 => ⟨rfl, rfl⟩⟩
  intro l hl hplus hminus
  obtain ⟨t, rfl⟩ := jsSubstr_one l 'L' hl
  rw [handleSpecialLocation]
  simp only [List.length_cons]
  rw [hslAux]
  rw [if_neg (not_or.mpr ⟨hplus, hminus⟩)]
  rw [hslRest]
  rw [if_neg (head_ne_cons (by decide) _ _), if_neg (head_ne_cons (by decide) _ _),
    if_neg (head_ne_cons (by decide) _ _)]
  rw [show jsSubstr ('L' :: t) 0 2 = 'L' :: t.take 1 from rfl]
  rw [if_neg (head_ne_cons (by decide) _ _), if_neg (head_ne_cons (by decide) _ _)]
  rw [show jsSubstr ('L' :: t) 0 1 = ['L'] from rfl]
  rw [if_neg (by decide), if_neg (by decide), if_pos (by decide)]

/-- Witness for C8 on the concrete input "L123". -/
theorem classifier_linbin_witness :
    handleSpecialLocation "L123".data
      = some (jsTrim (getPhonetic (jsSubstr "L123".data 1 2) ++ " LINBIN "
          ++ getPhonetic (jsSubstr "L123".data 3 4)), getCheck "L123".data) :=
  classifier_linbin.1 "L123".data (by decide) (by decide) (by decide)

/-- C10: the recursive classifier terminates on every input in at most
length-many recursive steps: any fuel of at least the input's length gives
the same result as fuel equal to the length, and the empty string never
matches the relative-suffix rule. -/
theorem classifier_terminates :
    (∀ (l : List Char) (fuel : Nat), l.length ≤ fuel → hslAux fuel l = handleSpecialLocation l)
    ∧ ¬ (jsSubstrLast ([] : List Char) = ['+'] ∨ jsSubstrLast ([] : List Char) = ['-']) :=
  ⟨fun l fuel h => hslAux_fuel fuel l h, by decide⟩

/-- Witness for C10: surplus fuel does not change the classification of
"A++", a string with several trailing relative-suffix characters. -/
theorem classifier_terminates_witness :
    hslAux 10 "A++".data = handleSpecialLocation "A++".data :=
  classifier_terminates.1 "A++".data 10 (by decide)

end CheckChar
